import Mathlib

/-!
Verification of the Mandelbrot renderer (src/main.rs).

The Rust source is shallowly embedded: `f64` arithmetic is modelled by exact
rational arithmetic (`ℚ`), the mutable pixel buffer by a `List ℕ` threaded
through explicit state passing, the `assert!` in `render` by an `Option`
result (`none` models the abort), and the crossbeam fork-join dispatcher by
the concatenation of the independently rendered bands (the bands write
disjoint slices, so the sequential composition is the determinization of the
parallel one).
-/

namespace Mandelbrot

/-- Complex number with exact rational components, modelling the num crate's
Complex with f64 fields (f64 arithmetic idealized as exact arithmetic). -/
@[ext]
structure Cplx where
  re : ℚ
  im : ℚ
deriving DecidableEq

/-- Complex addition, as in the num crate. -/
def Cplx.add (a b : Cplx) : Cplx := ⟨a.re + b.re, a.im + b.im⟩

/-- Complex multiplication, as in the num crate. -/
def Cplx.mul (a b : Cplx) : Cplx := ⟨a.re * b.re - a.im * b.im, a.re * b.im + a.im * b.re⟩

/-- Squared norm `re*re + im*im`, the num crate's norm_sqr. -/
def Cplx.norm_sqr (a : Cplx) : ℚ := a.re * a.re + a.im * a.im

/-- Loop of escape_time: z is the current iterate, i the current loop index,
and the last argument the remaining number of iterations (limit - i). Each
step first updates z to z*z + c and then tests norm_sqr > 4.0. -/
def escape_go (c : Cplx) : Cplx → ℕ → ℕ → Option ℕ
  | _, _, 0 => none
  | z, i, fuel + 1 =>
    let z' := (z.mul z).add c
    if 4 < z'.norm_sqr then some i else escape_go c z' (i + 1) fuel

/-- escape_time from src/main.rs: iterate z := z*z + c starting from z = 0 for
at most limit steps, returning some i at the first loop index i whose updated
iterate has squared norm exceeding 4, and none if that never happens. -/
def escape_time (c : Cplx) (limit : ℕ) : Option ℕ := escape_go c ⟨0, 0⟩ 0 limit

/-- The orbit z_0 = 0, z_{n+1} = z_n^2 + c of the Mandelbrot recurrence, the
mathematical object the specification's escape-time contract is phrased in. -/
def mandelOrbit (c : Cplx) : ℕ → Cplx
  | 0 => ⟨0, 0⟩
  | n + 1 => ((mandelOrbit c n).mul (mandelOrbit c n)).add c

/-- pixel_en_point from src/main.rs: linear interpolation sending pixel
(col, row) of a raster with geometry bords = (width, height) into the
viewport rectangle spanned by super_ga (upper left) and infer_dr (lower
right). Pixel indices are cast to ℚ exactly as the Rust code casts to f64. -/
def pixel_en_point (bords : ℕ × ℕ) (pixel : ℕ × ℕ) (super_ga infer_dr : Cplx) : Cplx :=
  let large : ℚ := infer_dr.re - super_ga.re
  let haute : ℚ := super_ga.im - infer_dr.im
  ⟨super_ga.re + (pixel.1 : ℚ) * large / (bords.1 : ℚ),
   super_ga.im - (pixel.2 : ℚ) * haute / (bords.2 : ℚ)⟩

/-- The grayscale value render stores for one pixel: 0 when escape_time
reports no escape within 255 iterations, 255 - i when it escapes at loop
index i (the body of the match in render). -/
def renderPixel (bords : ℕ × ℕ) (pixel : ℕ × ℕ) (super_ga infer_dr : Cplx) : ℕ :=
  match escape_time (pixel_en_point bords pixel super_ga infer_dr) 255 with
  | none => 0
  | some i => 255 - i

/-- Inner column loop of render: writes pixels[ligne * width + colonne] for
every colonne below the last argument, threading the buffer explicitly. -/
def renderCols (bords : ℕ × ℕ) (super_ga infer_dr : Cplx) (ligne : ℕ)
    (pixels : List ℕ) : ℕ → List ℕ
  | 0 => pixels
  | colonne + 1 =>
      (renderCols bords super_ga infer_dr ligne pixels colonne).set
        (ligne * bords.1 + colonne) (renderPixel bords (colonne, ligne) super_ga infer_dr)

/-- Outer row loop of render: runs the column loop for every ligne below the
last argument. -/
def renderRows (bords : ℕ × ℕ) (super_ga infer_dr : Cplx) (pixels : List ℕ) : ℕ → List ℕ
  | 0 => pixels
  | ligne + 1 =>
      renderCols bords super_ga infer_dr ligne
        (renderRows bords super_ga infer_dr pixels ligne) bords.1

/-- render from src/main.rs. The Rust function asserts
pixels.len() == bords.0 * bords.1 and then fills the buffer row by row; the
assertion failure (an abort) is modelled by returning none, success by
returning the final buffer. -/
def render (pixels : List ℕ) (bords : ℕ × ℕ) (super_ga infer_dr : Cplx) : Option (List ℕ) :=
  if pixels.length = bords.1 * bords.2 then
    some (renderRows bords super_ga infer_dr pixels bords.2)
  else none

/-- Fuel-indexed core of chunks: splits a list into consecutive chunks of k
elements, the last chunk holding the remainder. The fuel argument (one unit
per produced chunk, initialized to the list length) only makes the recursion
structural; it never runs out when k ≥ 1. -/
def chunksGo (k : ℕ) : ℕ → List ℕ → List (List ℕ)
  | _, [] => []
  | 0, l => [l]
  | fuel + 1, l => if l.length ≤ k then [l] else l.take k :: chunksGo k fuel (l.drop k)

/-- Model of Rust's slice chunks_mut(k): consecutive chunks of k elements,
last chunk possibly shorter, never empty chunks. (Rust aborts on k = 0; all
uses here have k ≥ 1.) -/
def chunks (k : ℕ) (l : List ℕ) : List (List ℕ) := chunksGo k l.length l

/-- Band height in rows as computed in main: bords.1 / exetrons + 1, with
exetrons = 32 in the source. -/
def lig_par_bande (haute exetrons : ℕ) : ℕ := haute / exetrons + 1

/-- One spawned worker of main: for band number i of the chunked buffer,
derive the band's top row, its own geometry (full width, rows = len / width)
and its own viewport corners via pixel_en_point on the full geometry, then
run render on the band. -/
def renderBand (bords : ℕ × ℕ) (super_ga infer_dr : Cplx) (L i : ℕ)
    (bande : List ℕ) : Option (List ℕ) :=
  let top := L * i
  let haute := bande.length / bords.1
  render bande (bords.1, haute)
    (pixel_en_point bords (0, top) super_ga infer_dr)
    (pixel_en_point bords (bords.1, top + haute) super_ga infer_dr)

/-- The dispatcher's loop over the enumerated bands. The crossbeam scope
joins all workers; since the bands are disjoint slices of the buffer, the
joined result is the concatenation of the rendered bands, and a worker abort
(render returning none) aborts the whole dispatch. -/
def dispatchGo (bords : ℕ × ℕ) (super_ga infer_dr : Cplx) (L : ℕ) :
    ℕ → List (List ℕ) → Option (List ℕ)
  | _, [] => some []
  | i, bande :: rest => do
      let r ← renderBand bords super_ga infer_dr L i bande
      let rs ← dispatchGo bords super_ga infer_dr L (i + 1) rest
      pure (r ++ rs)

/-- The core of main: allocate a zeroed width*height buffer, cut it into
bands of lig_par_bande rows, and render every band. The worker count
exetrons is a parameter here; the source fixes exetrons = 32. -/
def dispatch (bords : ℕ × ℕ) (super_ga infer_dr : Cplx) (exetrons : ℕ) : Option (List ℕ) :=
  let L := lig_par_bande bords.2 exetrons
  dispatchGo bords super_ga infer_dr L 0
    (chunks (L * bords.1) (List.replicate (bords.1 * bords.2) 0))

/-- One rendered row r of a raster with geometry bords and the given
viewport, in column order. Used to describe render's output. -/
def rowSeg (bords : ℕ × ℕ) (super_ga infer_dr : Cplx) (r : ℕ) : List ℕ :=
  (List.range bords.1).map (fun c => renderPixel bords (c, r) super_ga infer_dr)

/-- Rows t, t+1, ..., t+n-1 of a raster with geometry bords and the given
viewport, flattened in row-major order. bufSeg bords sg idr 0 bords.2 is the
full rendered image. -/
def bufSeg (bords : ℕ × ℕ) (super_ga infer_dr : Cplx) (t n : ℕ) : List ℕ :=
  ((List.range n).map (fun r => rowSeg bords super_ga infer_dr (t + r))).flatten

/-- Unfolding equation of the escape loop relative to the orbit: started at
the n-th orbit point with loop index n and some remaining fuel, the loop
returns some i exactly when orbit index i+1 is the first one past n whose
squared norm exceeds 4 and it is reached within the fuel. -/
theorem escape_go_orbit (c : Cplx) :
    ∀ fuel n i, escape_go c (mandelOrbit c n) n fuel = some i ↔
      (n ≤ i ∧ i < n + fuel ∧ 4 < (mandelOrbit c (i + 1)).norm_sqr ∧
        ∀ j, n < j → j ≤ i → (mandelOrbit c j).norm_sqr ≤ 4) := by
  intro fuel
  induction fuel with
  | zero =>
    intro n i
    simp only [escape_go]
    constructor
    · intro h; exact absurd h (by simp)
    · rintro ⟨h1, h2, -, -⟩; exact absurd (h1.trans_lt h2) (by omega)
  | succ fuel ih =>
    intro n i
    have hz : ((mandelOrbit c n).mul (mandelOrbit c n)).add c = mandelOrbit c (n + 1) := rfl
    simp only [escape_go, hz]
    split_ifs with hesc
    · constructor
      · intro h
        have hi : i = n := by injection h with h; omega
        subst hi
        exact ⟨le_refl i, by omega, hesc, fun j hj1 hj2 => absurd hj1 (by omega)⟩
      · rintro ⟨h1, -, -, h4⟩
        rcases eq_or_lt_of_le h1 with rfl | hlt
        · rfl
        · exact absurd hesc (not_lt.mpr (h4 (n + 1) (by omega) (by omega)))
    · rw [ih (n + 1) i]
      constructor
      · rintro ⟨h1, h2, h3, h4⟩
        refine ⟨by omega, by omega, h3, fun j hj1 hj2 => ?_⟩
        rcases eq_or_lt_of_le (Nat.succ_le_of_lt hj1) with hj | hj
        · exact hj ▸ le_of_not_lt hesc
        · exact h4 j hj hj2
      · rintro ⟨h1, h2, h3, h4⟩
        have hne : n ≠ i := by
          rintro rfl
          exact hesc h3
        exact ⟨by omega, by omega, h3, fun j hj1 hj2 => h4 j (by omega) hj2⟩

/-- The loop index returned by the escape loop is below the starting index
plus the fuel. -/
theorem escape_go_lt_add (c : Cplx) :
    ∀ fuel z n i, escape_go c z n fuel = some i → i < n + fuel := by
  intro fuel
  induction fuel with
  | zero => intro z n i h; exact absurd h (by simp [escape_go])
  | succ fuel ih =>
    intro z n i h
    simp only [escape_go] at h
    split_ifs at h with hesc
    · injection h with h; omega
    · have := ih _ (n + 1) i h
      omega

/-- The escape loop never stops when both c and the iterate are the origin:
the iterate stays at the origin, whose squared norm never exceeds 4. -/
theorem escape_go_origin : ∀ fuel n, escape_go ⟨0, 0⟩ ⟨0, 0⟩ n fuel = none := by
  intro fuel
  induction fuel with
  | zero => intro n; rfl
  | succ fuel ih =>
    intro n
    have hz : ((Cplx.mk 0 0).mul ⟨0, 0⟩).add ⟨0, 0⟩ = ⟨0, 0⟩ := by
      simp [Cplx.mul, Cplx.add]
    simp only [escape_go, hz]
    rw [if_neg (by norm_num [Cplx.norm_sqr])]
    exact ih (n + 1)

/-- Band-to-full-image pixel correspondence: mapping pixel (c, r) through a
band geometry (W, n) whose viewport corners were themselves derived by
mapping rows t and t + n of the full geometry (W, H) gives exactly the same
complex point as mapping pixel (c, t + r) through the full geometry. Exact
rational arithmetic makes the two interpolations coincide. -/
theorem pixel_en_point_band (W H t n c r : ℕ) (ul lr : Cplx)
    (hW : W ≠ 0) (hH : H ≠ 0) (hn : n ≠ 0) :
    pixel_en_point (W, n) (c, r)
      (pixel_en_point (W, H) (0, t) ul lr)
      (pixel_en_point (W, H) (W, t + n) ul lr)
    = pixel_en_point (W, H) (c, t + r) ul lr := by
  have hW' : (W : ℚ) ≠ 0 := Nat.cast_ne_zero.mpr hW
  have hH' : (H : ℚ) ≠ 0 := Nat.cast_ne_zero.mpr hH
  have hn' : (n : ℚ) ≠ 0 := Nat.cast_ne_zero.mpr hn
  simp only [pixel_en_point, Cplx.mk.injEq]
  refine ⟨?_, ?_⟩
  · push_cast
    field_simp
  · push_cast
    field_simp
    ring

/-- Setting an element at offset n past a left append segment sets it in the
right part. -/
theorem set_append_add (l₁ l₂ : List ℕ) (n v : ℕ) :
    (l₁ ++ l₂).set (l₁.length + n) v = l₁ ++ l₂.set n v := by
  simp [List.set_append]

/-- Variant of set_append_add for an index equal to the left length. -/
theorem set_append_len (l₁ l₂ : List ℕ) (v n : ℕ) (h : n = l₁.length) :
    (l₁ ++ l₂).set n v = l₁ ++ l₂.set 0 v := by
  subst h
  have h0 := set_append_add l₁ l₂ 0 v
  rw [Nat.add_zero] at h0
  exact h0

/-- A rendered row has the raster width as length. -/
theorem rowSeg_length (bords : ℕ × ℕ) (sg idr : Cplx) (r : ℕ) :
    (rowSeg bords sg idr r).length = bords.1 := by
  simp [rowSeg]

/-- A block of n rendered rows has length n times the raster width. -/
theorem bufSeg_length (bords : ℕ × ℕ) (sg idr : Cplx) (t n : ℕ) :
    (bufSeg bords sg idr t n).length = n * bords.1 := by
  simp [bufSeg, List.length_flatten, List.map_map, Function.comp, rowSeg_length]
  induction n with
  | zero => simp
  | succ n ih => simp [List.range_succ, ih, Nat.succ_mul, rowSeg_length]

/-- Splitting off the last row of a rendered row block. -/
theorem bufSeg_succ (bords : ℕ × ℕ) (sg idr : Cplx) (t n : ℕ) :
    bufSeg bords sg idr t (n + 1) = bufSeg bords sg idr t n ++ rowSeg bords sg idr (t + n) := by
  simp [bufSeg, List.range_succ]

/-- Consecutive rendered row blocks concatenate to one block. -/
theorem bufSeg_append (bords : ℕ × ℕ) (sg idr : Cplx) (t a b : ℕ) :
    bufSeg bords sg idr t a ++ bufSeg bords sg idr (t + a) b = bufSeg bords sg idr t (a + b) := by
  simp only [bufSeg, List.range_add, List.map_append, List.map_map, List.flatten_append]
  congr 2
  apply List.map_congr_left
  intro r _
  simp [Function.comp, Nat.add_assoc]

/-- Effect of the column loop on a buffer whose prefix a already holds the
previous rows: the columns below C of row ligne get their rendered values,
the rest of the buffer is untouched. -/
theorem renderCols_eq (bords : ℕ × ℕ) (sg idr : Cplx) (ligne : ℕ) (a rest : List ℕ)
    (ha : a.length = ligne * bords.1) :
    ∀ C, C ≤ rest.length →
      renderCols bords sg idr ligne (a ++ rest) C =
        a ++ ((List.range C).map (fun c => renderPixel bords (c, ligne) sg idr) ++ rest.drop C) := by
  intro C
  induction C with
  | zero => intro _; simp [renderCols]
  | succ C ih =>
    intro hC
    have hC' : C ≤ rest.length := by omega
    have hCl : C < rest.length := by omega
    simp only [renderCols, ih hC']
    have hidx : ligne * bords.1 + C = a.length + C := by rw [ha]
    rw [hidx, set_append_add]
    rw [set_append_len _ _ _ C (by simp)]
    rw [List.drop_eq_getElem_cons hCl, List.set_cons_zero]
    simp [List.range_succ]

/-- Effect of the row loop: the rows below R are rendered in place, the rest
of the buffer is untouched. -/
theorem renderRows_eq (bords : ℕ × ℕ) (sg idr : Cplx) (px : List ℕ) :
    ∀ R, bords.1 * R ≤ px.length →
      renderRows bords sg idr px R = bufSeg bords sg idr 0 R ++ px.drop (bords.1 * R) := by
  intro R
  induction R with
  | zero => intro _; simp [renderRows, bufSeg]
  | succ R ih =>
    intro hR
    have hmul : bords.1 * (R + 1) = bords.1 * R + bords.1 := by ring
    have hR' : bords.1 * R ≤ px.length := by omega
    simp only [renderRows]
    rw [ih hR']
    have ha : (bufSeg bords sg idr 0 R).length = R * bords.1 := bufSeg_length bords sg idr 0 R
    rw [renderCols_eq bords sg idr R _ _ ha bords.1 (by simp [List.length_drop]; omega)]
    rw [List.drop_drop]
    have hrow : (List.range bords.1).map (fun c => renderPixel bords (c, R) sg idr)
        = rowSeg bords sg idr R := rfl
    rw [hrow, ← List.append_assoc]
    simp [bufSeg_succ, Nat.mul_succ]

/-- render on a buffer of matching length succeeds and produces exactly the
block of all rendered rows of its geometry. -/
theorem render_eq (px : List ℕ) (bords : ℕ × ℕ) (sg idr : Cplx)
    (h : px.length = bords.1 * bords.2) :
    render px bords sg idr = some (bufSeg bords sg idr 0 bords.2) := by
  rw [render, if_pos h, renderRows_eq bords sg idr px bords.2 (by omega)]
  rw [← h, List.drop_length, List.append_nil]

/-- Row-major indexing into a rendered row block. -/
theorem bufSeg_getElem (bords : ℕ × ℕ) (sg idr : Cplx) :
    ∀ n t col row, col < bords.1 → row < n →
      (bufSeg bords sg idr t n)[row * bords.1 + col]? =
        some (renderPixel bords (col, t + row) sg idr) := by
  intro n
  induction n with
  | zero => intro t col row _ hrow; exact absurd hrow (Nat.not_lt_zero row)
  | succ n ih =>
    intro t col row hcol hrow
    rw [bufSeg_succ]
    rcases Nat.lt_or_ge row n with h | h
    · have hlt : row * bords.1 + col < n * bords.1 := by
        have h1 : (row + 1) * bords.1 ≤ n * bords.1 := Nat.mul_le_mul_right _ (by omega)
        have h2 : (row + 1) * bords.1 = row * bords.1 + bords.1 := by ring
        omega
      rw [List.getElem?_append, if_pos (by rw [bufSeg_length]; exact hlt)]
      exact ih t col row hcol h
    · have hrow' : row = n := by omega
      subst hrow'
      rw [List.getElem?_append_right (by rw [bufSeg_length]; omega), bufSeg_length]
      have hsub : row * bords.1 + col - row * bords.1 = col := by omega
      rw [hsub]
      simp [rowSeg, List.getElem?_range hcol]

/-- chunks of the empty list is the empty list of chunks. -/
theorem chunks_nil (k : ℕ) : chunks k [] = [] := rfl

/-- One-step unfolding of the chunk loop on a nonempty list with positive
fuel. -/
theorem chunksGo_succ (k fuel a : ℕ) (t : List ℕ) :
    chunksGo k (fuel + 1) (a :: t) =
      if (a :: t).length ≤ k then [a :: t]
      else (a :: t).take k :: chunksGo k fuel ((a :: t).drop k) := rfl

/-- The chunk loop ignores its fuel as long as the fuel covers the list
length and the chunk size is positive. -/
theorem chunksGo_fuel (k : ℕ) (hk : 1 ≤ k) :
    ∀ f l, l.length ≤ f → chunksGo k f l = chunks k l := by
  intro f
  induction f using Nat.strong_induction_on with
  | _ f ih =>
    intro l hl
    rcases l with _ | ⟨a, t⟩
    · have h1 : chunksGo k f [] = [] := by cases f <;> rfl
      rw [h1, chunks_nil]
    · rcases f with _ | g
      · simp at hl
      · have hl' : t.length + 1 ≤ g + 1 := by simpa using hl
        rw [chunksGo_succ]
        have hR : chunks k (a :: t) =
            if (a :: t).length ≤ k then [a :: t]
            else (a :: t).take k :: chunksGo k t.length ((a :: t).drop k) :=
          chunksGo_succ k t.length a t
        rw [hR]
        by_cases hle : (a :: t).length ≤ k
        · have hle' : t.length + 1 ≤ k := by simpa using hle
          simp [hle']
        · simp only [if_neg hle]
          congr 1
          have hd : ((a :: t).drop k).length ≤ g := by
            simp only [List.length_drop, List.length_cons]
            omega
          have hd2 : ((a :: t).drop k).length ≤ t.length := by
            simp only [List.length_drop, List.length_cons]
            omega
          rw [ih g (by omega) _ hd, ih t.length (by omega) _ hd2]

/-- When the whole replicated buffer fits in one chunk, chunks returns it as
the single (last, possibly short) band. -/
theorem chunks_replicate_small (k n x : ℕ) (h1 : 1 ≤ n) (hn : n ≤ k) :
    chunks k (List.replicate n x) = [List.replicate n x] := by
  obtain ⟨m, rfl⟩ : ∃ m, n = m + 1 := ⟨n - 1, by omega⟩
  simp only [chunks, List.length_replicate]
  rw [List.replicate_succ, chunksGo_succ, if_pos (by simp; omega)]

/-- When the replicated buffer is longer than a chunk, chunks cuts one full
chunk off the front. -/
theorem chunks_replicate_step (k n x : ℕ) (hk : 1 ≤ k) (hn : k < n) :
    chunks k (List.replicate n x) =
      List.replicate k x :: chunks k (List.replicate (n - k) x) := by
  obtain ⟨m, rfl⟩ : ∃ m, n = m + 1 := ⟨n - 1, by omega⟩
  simp only [chunks, List.length_replicate]
  rw [List.replicate_succ, chunksGo_succ, if_neg (by simp; omega)]
  congr 1
  · rw [← List.replicate_succ, List.take_replicate]
    congr 1
    exact min_eq_left (by omega)
  · rw [← List.replicate_succ, List.drop_replicate]
    rw [chunksGo_fuel k hk m (List.replicate (m + 1 - k) x)
      (by simp only [List.length_replicate]; omega)]
    rw [chunksGo_fuel k hk (m + 1 - k) (List.replicate (m + 1 - k) x)
      (by simp only [List.length_replicate]; omega)]

/-- chunks never returns an empty list of bands for a nonempty buffer. -/
theorem chunks_replicate_ne_nil (k n x : ℕ) (hk : 1 ≤ k) (hn : 1 ≤ n) :
    chunks k (List.replicate n x) ≠ [] := by
  rcases le_or_lt n k with h | h
  · rw [chunks_replicate_small k n x hn h]
    simp
  · rw [chunks_replicate_step k n x hk h]
    simp

/-- Every band cut from a width*h zeroed buffer with chunk size L*width has
a length that is an exact multiple of the width, at least one row and at
most L rows. -/
theorem chunks_replicate_mem (W L x : ℕ) (hW : 1 ≤ W) (hL : 1 ≤ L) :
    ∀ h, ∀ b ∈ chunks (L * W) (List.replicate (W * h) x),
      b.length = W * (b.length / W) ∧ 1 ≤ b.length / W ∧ b.length / W ≤ L := by
  intro h
  induction h using Nat.strong_induction_on with
  | _ h ih =>
    intro b hb
    rcases Nat.eq_zero_or_pos h with rfl | hh
    · rw [Nat.mul_zero, List.replicate_zero, chunks_nil] at hb
      exact absurd hb (List.not_mem_nil b)
    · rcases le_or_lt h L with hle | hlt
      · rw [chunks_replicate_small (L * W) (W * h) x (Nat.mul_pos hW hh)
          (by calc W * h ≤ W * L := Nat.mul_le_mul_left W hle
                _ = L * W := Nat.mul_comm W L)] at hb
        rw [List.mem_singleton] at hb
        subst hb
        rw [List.length_replicate]
        have hdiv : W * h / W = h := Nat.mul_div_cancel_left h hW
        rw [hdiv]
        exact ⟨rfl, hh, hle⟩
      · rw [chunks_replicate_step (L * W) (W * h) x (Nat.mul_pos hL hW)
          (by calc L * W = W * L := Nat.mul_comm L W
                _ < W * h := by exact mul_lt_mul_of_pos_left hlt hW)] at hb
        rcases List.mem_cons.mp hb with rfl | hb
        · rw [List.length_replicate]
          have hdiv : L * W / W = L := Nat.mul_div_cancel L hW
          rw [hdiv]
          exact ⟨Nat.mul_comm L W, hL, le_refl L⟩
        · have hsub : W * h - L * W = W * (h - L) := by
            rw [Nat.mul_comm L W, ← Nat.mul_sub]
          rw [hsub] at hb
          exact ih (h - L) (by omega) b hb

/-- Every band except the last cut from a width*h zeroed buffer has exactly
the full chunk length L*width. -/
theorem chunks_replicate_dropLast (W L x : ℕ) (hW : 1 ≤ W) (hL : 1 ≤ L) :
    ∀ h, ∀ b ∈ (chunks (L * W) (List.replicate (W * h) x)).dropLast,
      b.length = L * W := by
  intro h
  induction h using Nat.strong_induction_on with
  | _ h ih =>
    intro b hb
    rcases Nat.eq_zero_or_pos h with rfl | hh
    · rw [Nat.mul_zero, List.replicate_zero, chunks_nil] at hb
      exact absurd hb (List.not_mem_nil b)
    · rcases le_or_lt h L with hle | hlt
      · rw [chunks_replicate_small (L * W) (W * h) x (Nat.mul_pos hW hh)
          (by calc W * h ≤ W * L := Nat.mul_le_mul_left W hle
                _ = L * W := Nat.mul_comm W L)] at hb
        simp at hb
      · rw [chunks_replicate_step (L * W) (W * h) x (Nat.mul_pos hL hW)
          (by calc L * W = W * L := Nat.mul_comm L W
                _ < W * h := mul_lt_mul_of_pos_left hlt hW)] at hb
        have hsub : W * h - L * W = W * (h - L) := by
          rw [Nat.mul_comm L W, ← Nat.mul_sub]
        rw [hsub] at hb
        rw [List.dropLast_cons_of_ne_nil
          (chunks_replicate_ne_nil (L * W) (W * (h - L)) x (Nat.mul_pos hL hW)
            (Nat.mul_pos hW (by omega)))] at hb
        rcases List.mem_cons.mp hb with rfl | hb
        · exact List.length_replicate (L * W) x
        · exact ih (h - L) (by omega) b hb

/-- The row counts of the bands sum to the total row count. -/
theorem chunks_replicate_rows_sum (W L x : ℕ) (hW : 1 ≤ W) (hL : 1 ≤ L) :
    ∀ h, ((chunks (L * W) (List.replicate (W * h) x)).map (fun b => b.length / W)).sum = h := by
  intro h
  induction h using Nat.strong_induction_on with
  | _ h ih =>
    rcases Nat.eq_zero_or_pos h with rfl | hh
    · rw [Nat.mul_zero, List.replicate_zero, chunks_nil]
      rfl
    · rcases le_or_lt h L with hle | hlt
      · rw [chunks_replicate_small (L * W) (W * h) x (Nat.mul_pos hW hh)
          (by calc W * h ≤ W * L := Nat.mul_le_mul_left W hle
                _ = L * W := Nat.mul_comm W L)]
        simp [Nat.mul_div_cancel_left h hW]
      · rw [chunks_replicate_step (L * W) (W * h) x (Nat.mul_pos hL hW)
          (by calc L * W = W * L := Nat.mul_comm L W
                _ < W * h := mul_lt_mul_of_pos_left hlt hW)]
        have hsub : W * h - L * W = W * (h - L) := by
          rw [Nat.mul_comm L W, ← Nat.mul_sub]
        rw [hsub]
        simp only [List.map_cons, List.sum_cons, List.length_replicate]
        rw [Nat.mul_div_cancel L hW, ih (h - L) (by omega)]
        omega

/-- The i-th band starts at row L*i: the rows of the first i bands sum to
L*i (every band before the last is full). -/
theorem chunks_replicate_take_sum (W L x : ℕ) (hW : 1 ≤ W) (hL : 1 ≤ L) :
    ∀ h i, i < (chunks (L * W) (List.replicate (W * h) x)).length →
      (((chunks (L * W) (List.replicate (W * h) x)).map (fun b => b.length / W)).take i).sum
        = L * i := by
  intro h
  induction h using Nat.strong_induction_on with
  | _ h ih =>
    intro i hi
    rcases Nat.eq_zero_or_pos h with rfl | hh
    · rw [Nat.mul_zero, List.replicate_zero, chunks_nil] at hi
      simp at hi
    · rcases le_or_lt h L with hle | hlt
      · rw [chunks_replicate_small (L * W) (W * h) x (Nat.mul_pos hW hh)
          (by calc W * h ≤ W * L := Nat.mul_le_mul_left W hle
                _ = L * W := Nat.mul_comm W L)] at hi ⊢
        have : i = 0 := by simpa using Nat.lt_one_iff.mp (by simpa using hi)
        subst this
        simp
      · rw [chunks_replicate_step (L * W) (W * h) x (Nat.mul_pos hL hW)
          (by calc L * W = W * L := Nat.mul_comm L W
                _ < W * h := mul_lt_mul_of_pos_left hlt hW)] at hi ⊢
        have hsub : W * h - L * W = W * (h - L) := by
          rw [Nat.mul_comm L W, ← Nat.mul_sub]
        rw [hsub] at hi ⊢
        rcases i with _ | j
        · simp
        · simp only [List.map_cons, List.take_succ_cons, List.sum_cons, List.length_replicate,
            List.length_cons] at hi ⊢
          rw [Nat.mul_div_cancel L hW, ih (h - L) (by omega) j (by omega)]
          ring

/-- Rendering a band of n rows through its derived viewport corners produces
exactly rows t, ..., t+n-1 of the full image. -/
theorem bufSeg_band (W H t n : ℕ) (ul lr : Cplx) (hW : W ≠ 0) (hH : H ≠ 0) (hn : n ≠ 0) :
    bufSeg (W, n)
      (pixel_en_point (W, H) (0, t) ul lr)
      (pixel_en_point (W, H) (W, t + n) ul lr) 0 n
    = bufSeg (W, H) ul lr t n := by
  simp only [bufSeg]
  congr 1
  apply List.map_congr_left
  intro r _
  simp only [Nat.zero_add, rowSeg]
  apply List.map_congr_left
  intro c _
  simp only [renderPixel]
  rw [pixel_en_point_band W H t n c r ul lr hW hH hn]

/-- Dispatcher loop correctness: starting at band index i with the chunked
remainder of h rows (and L*i + h = H rows in total), the loop renders
exactly rows L*i, ..., H-1 of the full image. -/
theorem dispatchGo_chunks (W H L : ℕ) (ul lr : Cplx) (hW : 0 < W) (hL : 0 < L)
    (hH : H ≠ 0) :
    ∀ h i, L * i + h = H →
      dispatchGo (W, H) ul lr L i (chunks (L * W) (List.replicate (W * h) 0)) =
        some (bufSeg (W, H) ul lr (L * i) h) := by
  intro h
  induction h using Nat.strong_induction_on with
  | _ h ih =>
    intro i hsum
    rcases Nat.eq_zero_or_pos h with rfl | hh
    · rw [Nat.mul_zero, List.replicate_zero, chunks_nil]
      simp [dispatchGo, bufSeg]
    · rcases le_or_lt h L with hle | hlt
      · rw [chunks_replicate_small (L * W) (W * h) 0 (Nat.mul_pos hW hh)
          (by calc W * h ≤ W * L := Nat.mul_le_mul_left W hle
                _ = L * W := Nat.mul_comm W L)]
        have hrb : renderBand (W, H) ul lr L i (List.replicate (W * h) 0) =
            some (bufSeg (W, H) ul lr (L * i) h) := by
          simp only [renderBand, List.length_replicate]
          rw [Nat.mul_div_cancel_left h hW]
          rw [render_eq _ _ _ _ (by simp)]
          rw [bufSeg_band W H (L * i) h ul lr (by omega) hH (by omega)]
        simp [dispatchGo, hrb]
      · rw [chunks_replicate_step (L * W) (W * h) 0 (Nat.mul_pos hL hW)
          (by calc L * W = W * L := Nat.mul_comm L W
                _ < W * h := mul_lt_mul_of_pos_left hlt hW)]
        have hsub : W * h - L * W = W * (h - L) := by
          rw [Nat.mul_comm L W, ← Nat.mul_sub]
        rw [hsub]
        have hrb : renderBand (W, H) ul lr L i (List.replicate (L * W) 0) =
            some (bufSeg (W, H) ul lr (L * i) L) := by
          simp only [renderBand, List.length_replicate]
          rw [Nat.mul_div_cancel L hW]
          rw [render_eq _ _ _ _ (by simp [Nat.mul_comm L W])]
          rw [bufSeg_band W H (L * i) L ul lr (by omega) hH (by omega)]
        have hrest := ih (h - L) (by omega) (i + 1)
          (by have hmul : L * (i + 1) = L * i + L := by ring
              omega)
        simp only [dispatchGo, hrb, hrest, Option.bind_eq_bind, Option.some_bind]
        have hmul : L * (i + 1) = L * i + L := by ring
        rw [hmul] at hrest ⊢
        rw [bufSeg_append]
        rw [show L + (h - L) = h by omega]
        rfl

/-- C1: Worker-count independence. For every positive geometry (W, H) and
every worker count N ≥ 1, the buffer produced by the parallel dispatcher
(chunk into bands of lig_par_bande rows, derive each band's viewport corners
via pixel_en_point on the full geometry, render each band with its own
geometry) coincides byte for byte with a single render call over the whole
zeroed buffer with the full geometry and viewport. The concrete scenario
(1000, 750), ul = (-1.20, 0.35), lr = (-1.0, 0.20) is the witness below. -/
theorem claim1_dispatch_eq_render (W H N : ℕ) (ul lr : Cplx)
    (hW : 0 < W) (hH : 0 < H) (_hN : 0 < N) :
    dispatch (W, H) ul lr N = render (List.replicate (W * H) 0) (W, H) ul lr := by
  have hL : 0 < lig_par_bande H N := Nat.succ_pos _
  have hd := dispatchGo_chunks W H (lig_par_bande H N) ul lr hW hL (by omega) H 0 (by simp)
  rw [Nat.mul_zero] at hd
  simp only [dispatch]
  rw [hd, render_eq _ _ _ _ (by simp)]

/-- Witness for C1 at the spec's concrete scenario: geometry (1000, 750),
ul = (-1.20, 0.35), lr = (-1.0, 0.20), worker count 32. -/
theorem claim1_witness :
    dispatch (1000, 750) ⟨-6/5, 7/20⟩ ⟨-1, 1/5⟩ 32 =
      render (List.replicate (1000 * 750) 0) (1000, 750) ⟨-6/5, 7/20⟩ ⟨-1, 1/5⟩ :=
  claim1_dispatch_eq_render 1000 750 32 ⟨-6/5, 7/20⟩ ⟨-1, 1/5⟩
    (by decide) (by decide) (by decide)

/-- C2 (amended): escape_time(c, L) returns some i exactly when, writing
z_0 = 0, z_{n+1} = z_n^2 + c, the iterate z_{i+1} is the first one whose
squared norm exceeds 4 and i < L; that is, the returned index is one less
than the escaping orbit index (the loop tests the updated iterate). In
particular any c with norm_sqr c > 4 yields some 0, while c = (2, 0), whose
first iterate has squared norm exactly 4, yields some 1, not some 0. -/
theorem claim2_escape_time_characterization (c : Cplx) (L i : ℕ) :
    escape_time c L = some i ↔
      (i < L ∧ 4 < (mandelOrbit c (i + 1)).norm_sqr ∧
        ∀ j, j ≤ i → (mandelOrbit c j).norm_sqr ≤ 4) := by
  have h0 := escape_go_orbit c L 0 i
  have horb : mandelOrbit c 0 = ⟨0, 0⟩ := rfl
  rw [horb] at h0
  show escape_go c ⟨0, 0⟩ 0 L = some i ↔ _
  rw [h0]
  constructor
  · rintro ⟨-, h2, h3, h4⟩
    refine ⟨by omega, h3, fun j hj => ?_⟩
    rcases Nat.eq_zero_or_pos j with rfl | hjpos
    · norm_num [mandelOrbit, Cplx.norm_sqr]
    · exact h4 j hjpos hj
  · rintro ⟨h1, h3, h4⟩
    exact ⟨Nat.zero_le i, by omega, h3, fun j _ hj => h4 j hj⟩

/-- Counterexample to C2 as stated: for c = (2, 0) the code returns some 1,
not some 0 (the first iterate is 2, whose squared norm is exactly 4, which
does not exceed the strict threshold; the second iterate is 6). -/
theorem claim2_cex :
    escape_time ⟨2, 0⟩ 255 = some 1 ∧ escape_time ⟨2, 0⟩ 255 ≠ some 0 := by
  have horb1 : mandelOrbit ⟨2, 0⟩ 1 = ⟨2, 0⟩ := by
    norm_num [mandelOrbit, Cplx.mul, Cplx.add, Cplx.mk.injEq]
  have horb2 : mandelOrbit ⟨2, 0⟩ 2 = ⟨6, 0⟩ := by
    norm_num [mandelOrbit, Cplx.mul, Cplx.add, Cplx.mk.injEq]
  have h1 : escape_time ⟨2, 0⟩ 255 = some 1 := by
    have h : escape_go ⟨2, 0⟩ (mandelOrbit ⟨2, 0⟩ 0) 0 255 = some 1 := by
      rw [escape_go_orbit]
      refine ⟨by omega, by omega, ?_, ?_⟩
      · rw [show (1 : ℕ) + 1 = 2 from rfl, horb2]
        norm_num [Cplx.norm_sqr]
      · intro j hj0 hj1
        have hj : j = 1 := by omega
        subst hj
        rw [horb1]
        norm_num [Cplx.norm_sqr]
    exact h
  exact ⟨h1, by rw [h1]; simp⟩

/-- Witness for C2 (amended) at c = (3, 0), L = 5: the first iterate is 3
with squared norm 9 > 4, so the characterization yields some 0. -/
theorem claim2_witness : escape_time ⟨3, 0⟩ 5 = some 0 := by
  refine (claim2_escape_time_characterization ⟨3, 0⟩ 5 0).mpr ⟨by omega, ?_, ?_⟩
  · norm_num [mandelOrbit, Cplx.mul, Cplx.add, Cplx.norm_sqr]
  · intro j hj
    have hj0 : j = 0 := by omega
    subst hj0
    norm_num [mandelOrbit, Cplx.norm_sqr]

/-- C3 (amended): in the dispatcher's partition every band except possibly
the last has exactly lig_par_bande H N = H / N + 1 rows (floor division plus
one, as the code computes it with N = 32), which equals the ceiling of H / N
only when N does not divide H; every band (including the last) has at least
one row and at most H / N + 1 rows, so the last band is never longer than
the others and no band is ever empty; and when H < N the computed band
height is H / N + 1 = 1, so every band is a single row (the buffer splits
into one-row bands, not into a single band). -/
theorem claim3_band_row_counts (W H N : ℕ) (hW : 0 < W) (_hN : 0 < N) :
    lig_par_bande H N = H / N + 1 ∧
    (∀ b ∈ (chunks (lig_par_bande H N * W) (List.replicate (W * H) 0)).dropLast,
      b.length / W = lig_par_bande H N) ∧
    (∀ b ∈ chunks (lig_par_bande H N * W) (List.replicate (W * H) 0),
      1 ≤ b.length / W ∧ b.length / W ≤ lig_par_bande H N) ∧
    (H < N → ∀ b ∈ chunks (lig_par_bande H N * W) (List.replicate (W * H) 0),
      b.length / W = 1) := by
  have hL : 0 < lig_par_bande H N := Nat.succ_pos _
  refine ⟨rfl, ?_, ?_, ?_⟩
  · intro b hb
    have hlen := chunks_replicate_dropLast W (lig_par_bande H N) 0 hW hL H b hb
    rw [hlen, Nat.mul_div_cancel _ hW]
  · intro b hb
    exact (chunks_replicate_mem W (lig_par_bande H N) 0 hW hL H b hb).2
  · intro hHN b hb
    have hm := (chunks_replicate_mem W (lig_par_bande H N) 0 hW hL H b hb).2
    have hdiv : H / N = 0 := Nat.div_eq_of_lt hHN
    have hone : lig_par_bande H N = 1 := by rw [lig_par_bande, hdiv]
    omega

/-- Counterexample to C3 as stated: with the code's worker count 32, width 1
and height 64 (so 32 divides 64), the non-last bands have 64/32 + 1 = 3 rows
each, not the claimed ceiling 64/32 = 2. -/
theorem claim3_cex :
    ¬ ∀ b ∈ (chunks (lig_par_bande 64 32 * 1) (List.replicate (1 * 64) 0)).dropLast,
        b.length / 1 = (64 + 32 - 1) / 32 := by
  decide

/-- Witness for C3 (amended) at W = 1, H = 1, N = 32 (a case with H < N, so
the one-row-bands conjunct is exercised). -/
theorem claim3_witness :
    lig_par_bande 1 32 = 1 / 32 + 1 ∧
    (∀ b ∈ (chunks (lig_par_bande 1 32 * 1) (List.replicate (1 * 1) 0)).dropLast,
      b.length / 1 = lig_par_bande 1 32) ∧
    (∀ b ∈ chunks (lig_par_bande 1 32 * 1) (List.replicate (1 * 1) 0),
      1 ≤ b.length / 1 ∧ b.length / 1 ≤ lig_par_bande 1 32) ∧
    (1 < 32 → ∀ b ∈ chunks (lig_par_bande 1 32 * 1) (List.replicate (1 * 1) 0),
      b.length / 1 = 1) :=
  claim3_band_row_counts 1 1 32 (by decide) (by decide)

/-- C4: for every positive geometry (W, H) and worker count N ≥ 1, the bands
produced by the dispatcher's partition tile the row range [0, H) exactly:
the band areas (rows times width) sum to W*H, the band row counts sum to H,
and band i starts exactly at row lig_par_bande H N * i (the top row the code
assigns to it), i.e. the sum of the row counts of the first i bands — so the
bands are consecutive, with no gaps and no overlaps, regardless of whether H
is divisible by the worker count. -/
theorem claim4_bands_tile (W H N : ℕ) (hW : 0 < W) (_hH : 0 < H) (_hN : 0 < N) :
    ((chunks (lig_par_bande H N * W) (List.replicate (W * H) 0)).map
        (fun b => b.length / W * W)).sum = W * H ∧
    ((chunks (lig_par_bande H N * W) (List.replicate (W * H) 0)).map
        (fun b => b.length / W)).sum = H ∧
    ∀ i, i < (chunks (lig_par_bande H N * W) (List.replicate (W * H) 0)).length →
      (((chunks (lig_par_bande H N * W) (List.replicate (W * H) 0)).map
          (fun b => b.length / W)).take i).sum = lig_par_bande H N * i := by
  have hL : 0 < lig_par_bande H N := Nat.succ_pos _
  refine ⟨?_, chunks_replicate_rows_sum W _ 0 hW hL H,
    chunks_replicate_take_sum W _ 0 hW hL H⟩
  rw [List.sum_map_mul_right, chunks_replicate_rows_sum W _ 0 hW hL H, Nat.mul_comm]

/-- Witness for C4 at W = 2, H = 3, N = 2. -/
theorem claim4_witness :
    ((chunks (lig_par_bande 3 2 * 2) (List.replicate (2 * 3) 0)).map
        (fun b => b.length / 2 * 2)).sum = 2 * 3 ∧
    ((chunks (lig_par_bande 3 2 * 2) (List.replicate (2 * 3) 0)).map
        (fun b => b.length / 2)).sum = 3 ∧
    ∀ i, i < (chunks (lig_par_bande 3 2 * 2) (List.replicate (2 * 3) 0)).length →
      (((chunks (lig_par_bande 3 2 * 2) (List.replicate (2 * 3) 0)).map
          (fun b => b.length / 2)).take i).sum = lig_par_bande 3 2 * i :=
  claim4_bands_tile 2 3 2 (by decide) (by decide) (by decide)

/-- C5: render on a slice of length exactly W*H succeeds and writes every
element: the output has length W*H and at every row-major index
row*W + col it holds the value renderPixel, i.e. 0 when escape_time at limit
255 on the point produced by pixel_en_point with the band's own geometry and
viewport reports no escape, and 255 - i when it escapes at index i;
moreover every escape index i reported at limit 255 satisfies i ≤ 254, so
255 - i lies in [1, 255] and the byte subtraction cannot wrap. -/
theorem claim5_render_fills (px : List ℕ) (W H : ℕ) (sg idr : Cplx)
    (hlen : px.length = W * H) :
    ∃ out, render px (W, H) sg idr = some out ∧ out.length = W * H ∧
      (∀ col row, col < W → row < H →
        out[row * W + col]? = some (renderPixel (W, H) (col, row) sg idr)) ∧
      (∀ col row i,
        escape_time (pixel_en_point (W, H) (col, row) sg idr) 255 = some i → i ≤ 254) := by
  refine ⟨bufSeg (W, H) sg idr 0 H, render_eq px (W, H) sg idr hlen, ?_, ?_, ?_⟩
  · rw [bufSeg_length]
    exact Nat.mul_comm H W
  · intro col row hcol hrow
    have hg := bufSeg_getElem (W, H) sg idr H 0 col row hcol hrow
    simpa using hg
  · intro col row i hi
    have hlt := escape_go_lt_add (pixel_en_point (W, H) (col, row) sg idr) 255 ⟨0, 0⟩ 0 i hi
    omega

/-- Witness for C5 at the 1-by-1 geometry with a zeroed one-byte buffer. -/
theorem claim5_witness :
    ∃ out, render [0] (1, 1) ⟨0, 0⟩ ⟨0, 0⟩ = some out ∧ out.length = 1 * 1 ∧
      (∀ col row, col < 1 → row < 1 →
        out[row * 1 + col]? = some (renderPixel (1, 1) (col, row) ⟨0, 0⟩ ⟨0, 0⟩)) ∧
      (∀ col row i,
        escape_time (pixel_en_point (1, 1) (col, row) ⟨0, 0⟩ ⟨0, 0⟩) 255 = some i →
          i ≤ 254) :=
  claim5_render_fills [0] 1 1 ⟨0, 0⟩ ⟨0, 0⟩ (by decide)

/-- C6: for positive W and H the coordinate mapper is corner to corner:
pixel (0, 0) maps exactly to the upper-left viewport corner and pixel (W, H)
exactly to the lower-right one (exactly in the rational model of the f64
interpolation formula). -/
theorem claim6_corner_map (W H : ℕ) (ul lr : Cplx) (hW : 0 < W) (hH : 0 < H) :
    pixel_en_point (W, H) (0, 0) ul lr = ul ∧
    pixel_en_point (W, H) (W, H) ul lr = lr := by
  have hW' : (W : ℚ) ≠ 0 := Nat.cast_ne_zero.mpr (by omega)
  have hH' : (H : ℚ) ≠ 0 := Nat.cast_ne_zero.mpr (by omega)
  constructor
  · apply Cplx.ext <;> simp [pixel_en_point]
  · apply Cplx.ext <;> (simp only [pixel_en_point]; push_cast; field_simp; try ring)

/-- Witness for C6 at W = 2, H = 3, ul = (-1, 1), lr = (1, -1). -/
theorem claim6_witness :
    pixel_en_point (2, 3) (0, 0) ⟨-1, 1⟩ ⟨1, -1⟩ = ⟨-1, 1⟩ ∧
    pixel_en_point (2, 3) (2, 3) ⟨-1, 1⟩ ⟨1, -1⟩ = ⟨1, -1⟩ :=
  claim6_corner_map 2 3 ⟨-1, 1⟩ ⟨1, -1⟩ (by decide) (by decide)

/-- C7: the concrete scenario of the spec: geometry (100, 100), pixel
(25, 75), ul = (-1, 1), lr = (1, -1) maps exactly to (-0.5, -0.5). -/
theorem claim7_concrete_pixel :
    pixel_en_point (100, 100) (25, 75) ⟨-1, 1⟩ ⟨1, -1⟩ = ⟨-1/2, -1/2⟩ := by
  norm_num [pixel_en_point, Cplx.mk.injEq]

/-- C8: render called with a slice whose length differs from width*height
aborts (modelled by none) without writing any pixel. -/
theorem claim8_render_assert (px : List ℕ) (bords : ℕ × ℕ) (sg idr : Cplx)
    (h : px.length ≠ bords.1 * bords.2) :
    render px bords sg idr = none := by
  rw [render, if_neg h]

/-- Witness for C8: an empty slice against a 1-by-1 geometry aborts. -/
theorem claim8_witness : render [] (1, 1) ⟨0, 0⟩ ⟨0, 0⟩ = none :=
  claim8_render_assert [] (1, 1) ⟨0, 0⟩ ⟨0, 0⟩ (by decide)

/-- C9: for the origin c = (0, 0) and every iteration limit (in particular
every positive one), escape_time reports no escape: the iterate stays 0
forever. -/
theorem claim9_origin_no_escape (limit : ℕ) : escape_time ⟨0, 0⟩ limit = none :=
  escape_go_origin limit 0

/-- C10: every band slice the dispatcher cuts from the W*H buffer with chunk
size lig_par_bande H 32 * W has a length that is an exact multiple of W,
equal to W times the band height the code computes as bande.len() / W; hence
render's length assertion holds for every spawned band (renderBand returns
some, the abort branch is unreachable). -/
theorem claim10_band_assert_safe (W H : ℕ) (sg idr : Cplx) (hW : 0 < W) :
    ∀ b ∈ chunks (lig_par_bande H 32 * W) (List.replicate (W * H) 0),
      b.length = W * (b.length / W) ∧
      ∀ i, (renderBand (W, H) sg idr (lig_par_bande H 32) i b).isSome := by
  intro b hb
  have hm := chunks_replicate_mem W (lig_par_bande H 32) 0 hW (Nat.succ_pos _) H b hb
  refine ⟨hm.1, fun i => ?_⟩
  simp only [renderBand]
  rw [render_eq _ _ _ _ hm.1]
  rfl

/-- Witness for C10 at W = 1, H = 1 with the trivial viewport. -/
theorem claim10_witness :
    0 < 1 ∧
    ∀ b ∈ chunks (lig_par_bande 1 32 * 1) (List.replicate (1 * 1) 0),
      b.length = 1 * (b.length / 1) ∧
      ∀ i, (renderBand (1, 1) ⟨0, 0⟩ ⟨0, 0⟩ (lig_par_bande 1 32) i b).isSome :=
  ⟨by decide, claim10_band_assert_safe 1 1 ⟨0, 0⟩ ⟨0, 0⟩ (by decide)⟩

end Mandelbrot
